import Mathlib

/-!
Verification development for the cycleautocomplete Geany plugin
(src/cycleautocomplete/src/cycleautocomplete.c).

The C source is shallowly embedded below.  Strings (UTF-8 `gchar *`) are
modelled as `List Char`; buffer positions and distances (`gint`, always
non-negative here) as `Nat`; the GLib singly/doubly linked candidate list
as `List Candidate`.  The Scintilla buffer accessor (pattern search, word
boundary queries, text extraction) is an external collaborator: the
successive raw matches it returns to `find_words` are passed in as an
explicit `List RawMatch` stream, while everything the C file itself
computes (window arithmetic, filtering, deduplication, distance tracking,
sorting, sentinel handling, cycling, session-state management) is
translated directly from the source.
-/

set_option maxHeartbeats 1000000

/-- Enum `MatchType` from the source (values 0 and 1, in this order). -/
inductive MatchType where
  | MATCH_EXACT : MatchType
  | MATCH_FUZZY_FORWARD : MatchType
deriving DecidableEq

/-- Enum `SortOrder` from the source. -/
inductive SortOrder where
  | SORT_ALPHABETICALLY : SortOrder
  | SORT_BY_DISTANCE : SortOrder
deriving DecidableEq

/-- Enum `CycleDirection` from the source. -/
inductive CycleDirection where
  | CYCLE_FORWARD : CycleDirection
  | CYCLE_BACKWARD : CycleDirection
deriving DecidableEq

/-- Struct `Candidate` from the source: `{ gint dist; gchar *text; MatchType match_type; }`. -/
structure Candidate where
  dist : Nat
  text : List Char
  match_type : MatchType
deriving DecidableEq

/-- Default candidate used only to totalize list indexing; never reachable
in the guarded uses below. -/
def defaultCand : Candidate := ⟨0, [], .MATCH_EXACT⟩

/-- Struct `PluginConfig` from the source (the `config_file_path` field is
file-system plumbing and not part of the algorithmic core). -/
structure PluginConfig where
  candidates_limit : Nat
  distance_limit : Nat
  sort_order : SortOrder
  skip_fuzzy_if_exact : Bool
  remove_trailing_word_part : Bool

/-- Three-way `Nat` comparison, the value of the C idiom `(a > b) - (a < b)`
used by `compare_candidates_dist` and `compare_candidates_match_type`. -/
def natCmp (a b : Nat) : Ordering :=
  if a < b then .lt else if b < a then .gt else .eq

/-- Lexicographic comparison of UTF-8 strings by code point, the ordering
computed by `g_strcmp0` on valid UTF-8 (byte order coincides with code-point
order). -/
def lexCmp : List Char → List Char → Ordering
  | [], [] => .eq
  | [], _ :: _ => .lt
  | _ :: _, [] => .gt
  | a :: as, b :: bs =>
    match natCmp a.toNat b.toNat with
    | .eq => lexCmp as bs
    | o => o

/-- Locale-independent case folding (`g_utf8_casefold`), modelled as
per-character lowercasing. -/
def casefold (s : List Char) : List Char := s.map Char.toLower

/-- The combination `g_utf8_strchr` + `g_utf8_next_char` in the matcher loop:
the suffix of `l` strictly after the first occurrence of `c`, or `none` when
`c` does not occur. -/
def strchrAfter (c : Char) : List Char → Option (List Char)
  | [] => none
  | x :: xs => if x = c then some xs else strchrAfter c xs

/-- The `while` loop of `match_fuzzy_forward` (lines 176-186): walk the
(case-folded) pattern, advancing a cursor through the (case-folded) match
with no backtracking. -/
def fuzzyLoop : List Char → List Char → Bool
  | [], _ => true
  | c :: ps, baseline =>
    match strchrAfter c baseline with
    | none => false
    | some rest => fuzzyLoop ps rest

/-- `match_fuzzy_forward` (lines 168-191): case-fold both inputs, then run
the greedy left-to-right subsequence check. -/
def match_fuzzy_forward (pattern m : List Char) : Bool :=
  fuzzyLoop (casefold pattern) (casefold m)

section FuzzyLemmas

theorem fuzzyLoop_iff_sublist : ∀ (m p : List Char),
    fuzzyLoop p m = true ↔ p.Sublist m := by
  intro m
  induction m with
  | nil =>
    intro p
    cases p with
    | nil => simp [fuzzyLoop]
    | cons c ps => simp [fuzzyLoop, strchrAfter]
  | cons x xs ih =>
    intro p
    cases p with
    | nil => simp [fuzzyLoop]
    | cons c ps =>
      by_cases hxc : x = c
      · subst hxc
        have hstep : fuzzyLoop (x :: ps) (x :: xs) = fuzzyLoop ps xs := by
          simp [fuzzyLoop, strchrAfter]
        rw [hstep, ih ps]
        exact (List.cons_sublist_cons).symm
      · have hstep : fuzzyLoop (c :: ps) (x :: xs) = fuzzyLoop (c :: ps) xs := by
          simp [fuzzyLoop, strchrAfter, hxc]
        rw [hstep, ih (c :: ps)]
        constructor
        · intro h; exact h.cons x
        · intro h
          cases h with
          | cons _ h' => exact h'
          | cons₂ _ h' => exact absurd rfl hxc

end FuzzyLemmas

/-- `compare_candidates_alpha` (lines 150-153): `g_strcmp0` on the texts. -/
def compare_candidates_alpha (c0 c1 : Candidate) : Ordering :=
  lexCmp c0.text c1.text

/-- `compare_candidates_dist` (lines 156-159): `(d0 > d1) - (d0 < d1)`. -/
def compare_candidates_dist (c0 c1 : Candidate) : Ordering :=
  natCmp c0.dist c1.dist

/-- Numeric value of the `MatchType` enum constants. -/
def mtVal : MatchType → Nat
  | .MATCH_EXACT => 0
  | .MATCH_FUZZY_FORWARD => 1

/-- `compare_candidates_match_type` (lines 162-165). -/
def compare_candidates_match_type (c0 c1 : Candidate) : Ordering :=
  natCmp (mtVal c0.match_type) (mtVal c1.match_type)

/-- One insertion step of the stable sort modelling `g_list_sort`: the new
element goes after every element strictly below it and before the first
element not below it (in particular before later equal elements). -/
def gListInsert (cmp : α → α → Ordering) (x : α) : List α → List α
  | [] => [x]
  | y :: ys => if cmp y x = .lt then y :: gListInsert cmp x ys else x :: y :: ys

/-- Shallow embedding of `g_list_sort`, which GLib documents as a stable
merge sort; modelled by an equivalent stable insertion sort. -/
def gListSort (cmp : α → α → Ordering) : List α → List α
  | [] => []
  | x :: xs => gListInsert cmp x (gListSort cmp xs)

section SortLemmas

variable {α : Type} (cmp : α → α → Ordering)

theorem gListInsert_perm (x : α) (l : List α) :
    (gListInsert cmp x l).Perm (x :: l) := by
  induction l with
  | nil => simp [gListInsert]
  | cons y ys ih =>
    by_cases h : cmp y x = .lt
    · simp only [gListInsert, if_pos h]
      exact (ih.cons y).trans (List.Perm.swap x y ys)
    · simp [gListInsert, h]

theorem gListSort_perm (l : List α) : (gListSort cmp l).Perm l := by
  induction l with
  | nil => simp [gListSort]
  | cons x xs ih =>
    exact (gListInsert_perm cmp x (gListSort cmp xs)).trans (ih.cons x)

theorem gListInsert_pairwise
    (hswap : ∀ a b : α, cmp b a ≠ .lt → cmp a b ≠ .gt)
    (htrans : ∀ a b c : α, cmp a b ≠ .gt → cmp b c ≠ .gt → cmp a c ≠ .gt)
    (x : α) (l : List α) (hl : l.Pairwise (fun a b => cmp a b ≠ .gt)) :
    (gListInsert cmp x l).Pairwise (fun a b => cmp a b ≠ .gt) := by
  induction l with
  | nil => simp [gListInsert]
  | cons y ys ih =>
    rcases List.pairwise_cons.mp hl with ⟨hy, hys⟩
    by_cases h : cmp y x = .lt
    · simp only [gListInsert, if_pos h]
      refine List.pairwise_cons.mpr ⟨?_, ih hys⟩
      intro z hz
      have hz' := (gListInsert_perm cmp x ys).mem_iff.mp hz
      rcases List.mem_cons.mp hz' with rfl | hz''
      · simp [h]
      · exact hy z hz''
    · simp only [gListInsert, if_neg h]
      refine List.pairwise_cons.mpr ⟨?_, hl⟩
      intro z hz
      rcases List.mem_cons.mp hz with rfl | hz'
      · exact hswap x z h
      · exact htrans x y z (hswap x y h) (hy z hz')

theorem gListSort_pairwise
    (hswap : ∀ a b : α, cmp b a ≠ .lt → cmp a b ≠ .gt)
    (htrans : ∀ a b c : α, cmp a b ≠ .gt → cmp b c ≠ .gt → cmp a c ≠ .gt)
    (l : List α) :
    (gListSort cmp l).Pairwise (fun a b => cmp a b ≠ .gt) := by
  induction l with
  | nil => simp [gListSort]
  | cons x xs ih => exact gListInsert_pairwise cmp hswap htrans x _ ih

theorem gListInsert_filter_neg (p : α → Bool) (x : α) (l : List α)
    (hx : p x = false) :
    (gListInsert cmp x l).filter p = l.filter p := by
  induction l with
  | nil => simp [gListInsert, List.filter, hx]
  | cons y ys ih =>
    by_cases h : cmp y x = .lt
    · simp only [gListInsert, if_pos h]
      cases hy : p y <;> simp [List.filter, hy, ih]
    · simp only [gListInsert, if_neg h]
      cases hy : p y <;> simp [List.filter, hx, hy]

theorem gListInsert_filter_pos (p : α → Bool) (x : α) (l : List α)
    (hx : p x = true) (h : ∀ y ∈ l, p y = true → cmp y x ≠ .lt) :
    (gListInsert cmp x l).filter p = x :: l.filter p := by
  induction l with
  | nil => simp [gListInsert, List.filter, hx]
  | cons y ys ih =>
    by_cases hlt : cmp y x = .lt
    · have hpy : p y = false := by
        cases hy : p y
        · rfl
        · exact absurd hlt (h y (List.mem_cons_self y ys) hy)
      simp only [gListInsert, if_pos hlt]
      simp only [List.filter, hpy]
      exact ih fun z hz => h z (List.mem_cons_of_mem y hz)
    · simp only [gListInsert, if_neg hlt]
      simp [List.filter, hx]

theorem gListSort_filter (p : α → Bool) (l : List α)
    (h : ∀ a b : α, p a = true → p b = true → cmp a b ≠ .lt) :
    (gListSort cmp l).filter p = l.filter p := by
  induction l with
  | nil => simp [gListSort]
  | cons x xs ih =>
    cases hx : p x
    · rw [show gListSort cmp (x :: xs) = gListInsert cmp x (gListSort cmp xs) from rfl,
        gListInsert_filter_neg cmp p x _ hx, ih]
      simp [List.filter, hx]
    · rw [show gListSort cmp (x :: xs) = gListInsert cmp x (gListSort cmp xs) from rfl,
        gListInsert_filter_pos cmp p x _ hx
          (fun y hy hpy => h y x hpy hx), ih]
      simp [List.filter, hx]

end SortLemmas

section CmpLemmas

theorem natCmp_ne_gt_iff {a b : Nat} : natCmp a b ≠ .gt ↔ a ≤ b := by
  unfold natCmp
  split <;> rename_i h
  · simp; omega
  · split <;> rename_i h'
    · simp; omega
    · simp; omega

theorem natCmp_eq_lt_iff {a b : Nat} : natCmp a b = .lt ↔ a < b := by
  unfold natCmp
  split <;> rename_i h
  · simp [h]
  · split <;> simp <;> omega

theorem natCmp_self (a : Nat) : natCmp a a = .eq := by
  unfold natCmp; simp

theorem natCmp_swap (a b : Nat) (h : natCmp b a ≠ .lt) : natCmp a b ≠ .gt := by
  have h' : ¬ b < a := fun hc => h (natCmp_eq_lt_iff.mpr hc)
  rw [natCmp_ne_gt_iff]
  omega

theorem natCmp_trans (a b c : Nat)
    (h1 : natCmp a b ≠ .gt) (h2 : natCmp b c ≠ .gt) : natCmp a c ≠ .gt := by
  rw [natCmp_ne_gt_iff] at h1 h2 ⊢
  omega

theorem lexCmp_self (s : List Char) : lexCmp s s = .eq := by
  induction s with
  | nil => rfl
  | cons c cs ih => simp [lexCmp, natCmp_self, ih]

theorem lexCmp_cons_ne_gt_iff {a b : Char} {as bs : List Char} :
    lexCmp (a :: as) (b :: bs) ≠ .gt ↔
      (a.toNat < b.toNat ∨ (a.toNat = b.toNat ∧ lexCmp as bs ≠ .gt)) := by
  simp only [lexCmp]
  rcases h : natCmp a.toNat b.toNat with _ | _ | _
  · have := natCmp_eq_lt_iff.mp h
    simp [this]
  · have h1 : ¬ a.toNat < b.toNat := by
      intro hc; rw [← natCmp_eq_lt_iff] at hc; rw [h] at hc; cases hc
    have h2 : a.toNat = b.toNat := by
      unfold natCmp at h
      by_cases hab : a.toNat < b.toNat
      · simp [hab] at h
      · by_cases hba : b.toNat < a.toNat
        · simp [hab, hba] at h
        · omega
    simp [h1, h2]
  · have h2 : b.toNat < a.toNat := by
      unfold natCmp at h
      by_cases hab : a.toNat < b.toNat
      · simp [hab] at h
      · by_cases hba : b.toNat < a.toNat
        · exact hba
        · simp [hab, hba] at h
    simp
    omega

theorem lexCmp_swap : ∀ a b : List Char, lexCmp b a ≠ .lt → lexCmp a b ≠ .gt := by
  intro a
  induction a with
  | nil =>
    intro b _
    cases b <;> simp [lexCmp]
  | cons x xs ih =>
    intro b hb
    cases b with
    | nil => simp [lexCmp] at hb
    | cons y ys =>
      rw [lexCmp_cons_ne_gt_iff]
      simp only [lexCmp] at hb
      rcases h : natCmp y.toNat x.toNat with _ | _ | _
      · rw [h] at hb; simp at hb
      · have h2 : x.toNat = y.toNat := by
          unfold natCmp at h
          by_cases hab : y.toNat < x.toNat
          · simp [hab] at h
          · by_cases hba : x.toNat < y.toNat
            · simp [hab, hba] at h
            · omega
        rw [h] at hb
        exact Or.inr ⟨h2, ih ys hb⟩
      · have h2 : x.toNat < y.toNat := by
          unfold natCmp at h
          by_cases hab : y.toNat < x.toNat
          · simp [hab] at h
          · by_cases hba : x.toNat < y.toNat
            · exact hba
            · simp [hab, hba] at h
        exact Or.inl h2

theorem lexCmp_trans : ∀ a b c : List Char,
    lexCmp a b ≠ .gt → lexCmp b c ≠ .gt → lexCmp a c ≠ .gt := by
  intro a
  induction a with
  | nil =>
    intro b c _ _
    cases c <;> simp [lexCmp]
  | cons x xs ih =>
    intro b c h1 h2
    cases b with
    | nil => simp [lexCmp] at h1
    | cons y ys =>
      cases c with
      | nil => simp [lexCmp] at h2
      | cons z zs =>
        rw [lexCmp_cons_ne_gt_iff] at h1 h2 ⊢
        rcases h1 with h1 | ⟨h1e, h1t⟩
        · rcases h2 with h2 | ⟨h2e, h2t⟩
          · exact Or.inl (by omega)
          · exact Or.inl (by omega)
        · rcases h2 with h2 | ⟨h2e, h2t⟩
          · exact Or.inl (by omega)
          · exact Or.inr ⟨by omega, ih ys zs h1t h2t⟩

end CmpLemmas

/-- One raw occurrence handed back by the Scintilla search in the scan loop
of `find_words`: the match start position (`match_start`) and the token text
extended to its word end (`sci_get_contents_range(sci, match_start,
match_end)`).  Finding these occurrences is the buffer accessor's job; the
successive results are modelled as an explicit stream. -/
structure RawMatch where
  start : Nat
  text : List Char
deriving DecidableEq

/-- `g_list_find_custom(candidates, match, compare_candidate_str)`:
first candidate whose text equals `t`. -/
def findCand (t : List Char) : List Candidate → Option Candidate
  | [] => none
  | c :: cs => if c.text = t then some c else findCand t cs

/-- The in-place update `c->dist = MIN(ABS(match_start - pos), c->dist)`
on the list element found by `g_list_find_custom`. -/
def updateFirst (t : List Char) (d : Nat) : List Candidate → List Candidate
  | [] => []
  | c :: cs =>
    if c.text = t then { c with dist := min d c.dist } :: cs
    else c :: updateFirst t d cs

/-- The body of the scan loop of `find_words` (lines 249-266) for one
occurrence that reached it: deduplicate by text with minimum-distance
update, exclude the word being typed, otherwise prepend a new candidate
carrying the pass's match type and count it. -/
def fwBody (word : List Char) (pos : Nat) (mt : MatchType)
    (st : List Candidate × Nat) (r : RawMatch) : List Candidate × Nat :=
  match findCand r.text st.1 with
  | some _ => (updateFirst r.text (Nat.dist r.start pos) st.1, st.2)
  | none =>
    if r.text = word then st
    else (⟨Nat.dist r.start pos, r.text, mt⟩ :: st.1, st.2 + 1)

/-- The search window computation of `find_words` (lines 208-219):
`radius = distance_limit * 1024`, clamped to `[0, length]`; the whole
buffer when `distance_limit` is zero. -/
def searchWindow (distance_limit pos len : Nat) : Nat × Nat :=
  if 0 < distance_limit then
    (pos - distance_limit * 1024, min (pos + distance_limit * 1024) len)
  else
    (0, len)

/-- The scan loop of `find_words` (lines 244-275): process successive raw
matches while they start inside the window, filtering each through the
optional select function, and stop once this pass has discovered
`candidates_limit` new unique tokens. -/
def fw_loop (limit : Nat) (word : List Char) (pos : Nat)
    (sel : List Char → Bool) (mt : MatchType) (sStart sEnd : Nat) :
    List RawMatch → List Candidate × Nat → List Candidate × Nat
  | [], st => st
  | r :: rest, st =>
    if sStart ≤ r.start ∧ r.start < sEnd then
      let st' := if sel r.text then fwBody word pos mt st r else st
      if st'.2 = limit then st'
      else fw_loop limit word pos sel mt sStart sEnd rest st'
    else st

/-- `find_words` (lines 194-278).  `fuzzy = false` is the exact pass
(`select_func == NULL`, pattern = the whole prefix); `fuzzy = true` is the
fuzzy pass (`select_func == match_fuzzy_forward`, pattern = first character
of the prefix — the narrower pattern only changes which raw matches the
accessor returns, hence lives in the stream).  Returns the updated candidate
list and the number of new unique tokens found by this pass. -/
def find_words (cfg : PluginConfig) (pfx word : List Char) (pos len : Nat)
    (fuzzy : Bool) (stream : List RawMatch) (st : List Candidate × Nat) :
    List Candidate × Nat :=
  let w := searchWindow cfg.distance_limit pos len
  let sel : List Char → Bool :=
    if fuzzy then fun t => match_fuzzy_forward pfx t else fun _ => true
  let mt : MatchType := if fuzzy then .MATCH_FUZZY_FORWARD else .MATCH_EXACT
  fw_loop cfg.candidates_limit word pos sel mt w.1 w.2 stream st

/-- The collection phase of `find_candidates` (lines 286-291): exact pass
first, then the fuzzy pass exactly when the exact pass found nothing or
`skip_fuzzy_if_exact` is unset.  `es` and `fs` are the raw-match streams the
buffer accessor produces for the two searches. -/
def collected_candidates (cfg : PluginConfig) (pfx word : List Char)
    (pos len : Nat) (es fs : List RawMatch) : List Candidate :=
  let p1 := find_words cfg pfx word pos len false es ([], 0)
  if p1.2 = 0 ∨ cfg.skip_fuzzy_if_exact = false then
    (find_words cfg pfx word pos len true fs (p1.1, 0)).1
  else p1.1

/-- The sentinel appended by `find_candidates` (lines 316-317): `g_new0`
zeroes `dist` and `match_type`; its text is the word or the prefix depending
on `remove_trailing_word_part`. -/
def sentinel_candidate (cfg : PluginConfig) (pfx word : List Char) : Candidate :=
  ⟨0, if cfg.remove_trailing_word_part then word else pfx, .MATCH_EXACT⟩

/-- The primary comparison selected by the `switch` on `sort_order`
(lines 296-308). -/
def sortCmp : SortOrder → Candidate → Candidate → Ordering
  | .SORT_ALPHABETICALLY => compare_candidates_alpha
  | .SORT_BY_DISTANCE => compare_candidates_dist

/-- The sorting phase of `find_candidates` (lines 296-314): a stable sort by
the primary key, then — exactly when `skip_fuzzy_if_exact` is unset — a
second stable sort placing exact before fuzzy matches. -/
def rank_candidates (so : SortOrder) (skip : Bool) (l : List Candidate) :
    List Candidate :=
  let s1 := gListSort (sortCmp so) l
  if skip then s1 else gListSort compare_candidates_match_type s1

/-- `find_candidates` (lines 281-320): run the passes, and if any candidate
was collected, sort and append the sentinel; otherwise leave the list empty. -/
def find_candidates (cfg : PluginConfig) (pfx word : List Char)
    (pos len : Nat) (es fs : List RawMatch) : List Candidate :=
  let c2 := collected_candidates cfg pfx word pos len es fs
  if c2 = [] then []
  else rank_candidates cfg.sort_order cfg.skip_fuzzy_if_exact c2
       ++ [sentinel_candidate cfg pfx word]

/-- The scan-loop body (lines 249-266) iterated over the sequence of
occurrences that reach it, each tagged with the match type of the pass that
produced it (exact pass first, fuzzy pass second).  This is the collector
semantics shared by both `find_words` passes. -/
def collectRec (word : List Char) (pos : Nat) :
    List Candidate × Nat → List (MatchType × RawMatch) → List Candidate × Nat
  | st, [] => st
  | st, (mt, r) :: rest => collectRec word pos (fwBody word pos mt st r) rest

/-- The list search in the `for` loop of `cycle_candidates`: index of the
first candidate satisfying the predicate. -/
def gFindIdx (p : α → Bool) : List α → Option Nat
  | [] => none
  | x :: xs => if p x then some 0 else (gFindIdx p xs).map (· + 1)

/-- `cycle_candidates` (lines 323-365): look up the previously inserted text
in the list; step to the next/previous element with explicit wraparound
(`elem->next` / `candidates->data`, `elem->prev` / `g_list_last`); fall back
to the first element when there is no previous completion or it is not in
the list.  The C code is only called with a non-empty list; the empty case
here returns the text of a dummy candidate. -/
def cycle_candidates (direction : CycleDirection)
    (prev_completion : Option (List Char)) (cands : List Candidate) :
    List Char :=
  let fallback := (cands.headD defaultCand).text
  match prev_completion with
  | none => fallback
  | some p =>
    match gFindIdx (fun c => decide (c.text = p)) cands with
    | none => fallback
    | some i =>
      match direction with
      | .CYCLE_FORWARD =>
        if i + 1 < cands.length then (cands.getD (i + 1) defaultCand).text
        else fallback
      | .CYCLE_BACKWARD =>
        if i = 0 then (cands.getD (cands.length - 1) defaultCand).text
        else (cands.getD (i - 1) defaultCand).text

/-- Cycling `k` times, accepting each returned candidate (so the previous
completion is updated to it) before the next step. -/
def cycIter (direction : CycleDirection) (cands : List Candidate) :
    Nat → List Char → List Char
  | 0, p => p
  | k + 1, p => cycIter direction cands k (cycle_candidates direction (some p) cands)

/-- The process-scoped session state of `insert_completion`: the `static
gchar *prev_completion` and the file-scoped `GList *candidates`. -/
structure PState where
  prev_completion : Option (List Char)
  candidates : List Candidate
deriving DecidableEq

/-- The user-visible outcome of one `insert_completion` call: either the
buffer replacement by a completion text, or the statusbar message
No completions found naming the typed prefix. -/
inductive CompletionOutcome where
  | replaced : List Char → CompletionOutcome
  | no_completions : List Char → CompletionOutcome
deriving DecidableEq

/-- `insert_completion` (lines 368-435) past the prefix extraction (the
cursor/word-boundary queries are the buffer accessor's job; `pfx` and `word`
are the extracted prefix and word, `pos` the cursor position, `len` the
buffer length).  If there is no previous completion or the prefix differs
from it, discard the list, reset the previous completion and rescan;
then either cycle-and-replace or report that nothing was found. -/
def insert_completion (cfg : PluginConfig) (pfx word : List Char)
    (pos len : Nat) (es fs : List RawMatch) (direction : CycleDirection)
    (st : PState) : PState × CompletionOutcome :=
  let st1 : PState :=
    if st.prev_completion = some pfx then st
    else { prev_completion := none,
           candidates := find_candidates cfg pfx word pos len es fs }
  if st1.candidates = [] then
    (st1, .no_completions pfx)
  else
    let completion := cycle_candidates direction st1.prev_completion st1.candidates
    ({ prev_completion := some completion, candidates := st1.candidates },
     .replaced completion)

section CycleLemmas

theorem getD_mem {α : Type} (l : List α) (i : Nat) (d : α) (h : i < l.length) :
    l.getD i d ∈ l := by
  induction l generalizing i with
  | nil => simp at h
  | cons x xs ih =>
    cases i with
    | zero => simp [List.getD]
    | succ j =>
      simp only [List.length_cons] at h
      exact List.mem_cons_of_mem x (ih j (by omega))

theorem headD_eq_getD {α : Type} (l : List α) (d : α) :
    l.headD d = l.getD 0 d := by
  cases l <;> simp [List.headD, List.getD]

theorem gFindIdx_some_lt {α : Type} {p : α → Bool} {l : List α} {i : Nat}
    (h : gFindIdx p l = some i) : i < l.length := by
  induction l generalizing i with
  | nil => simp [gFindIdx] at h
  | cons x xs ih =>
    simp only [gFindIdx] at h
    by_cases hx : p x
    · rw [if_pos hx] at h
      injection h with h'
      subst h'
      simp
    · rw [if_neg hx] at h
      cases hfi : gFindIdx p xs with
      | none => rw [hfi] at h; simp at h
      | some j =>
        rw [hfi] at h
        simp only [Option.map_some'] at h
        injection h with h'
        have := ih hfi
        simp only [List.length_cons]
        omega

theorem gFindIdx_eq_none {α : Type} {p : α → Bool} {l : List α}
    (h : ∀ x ∈ l, p x = false) : gFindIdx p l = none := by
  induction l with
  | nil => rfl
  | cons x xs ih =>
    have hx := h x (List.mem_cons_self x xs)
    simp only [gFindIdx, hx]
    simp [ih fun y hy => h y (List.mem_cons_of_mem x hy)]

theorem gFindIdx_text_nodup {L : List Candidate} {t : List Char} {i : Nat}
    (hnd : (L.map (·.text)).Nodup) (hi : i < L.length)
    (ht : (L.getD i defaultCand).text = t) :
    gFindIdx (fun c => decide (c.text = t)) L = some i := by
  induction L generalizing i with
  | nil => simp at hi
  | cons c cs ih =>
    have hnd' := hnd
    rw [List.map_cons, List.nodup_cons] at hnd'
    obtain ⟨hc, hcs⟩ := hnd'
    cases i with
    | zero =>
      have : c.text = t := ht
      simp [gFindIdx, this]
    | succ j =>
      simp only [List.length_cons] at hi
      have hj : j < cs.length := by omega
      have htj : (cs.getD j defaultCand).text = t := ht
      have hct : c.text ≠ t := by
        intro hcte
        apply hc
        rw [hcte, ← htj]
        exact List.mem_map_of_mem (·.text) (getD_mem cs j defaultCand hj)
      simp only [gFindIdx, decide_eq_true_eq, if_neg hct]
      rw [ih hcs hj htj]
      rfl

theorem cycle_candidates_none {L : List Candidate} (dir : CycleDirection) :
    cycle_candidates dir none L = (L.getD 0 defaultCand).text := by
  rw [show cycle_candidates dir none L = (L.headD defaultCand).text from rfl,
    headD_eq_getD]

theorem cycle_candidates_notfound {L : List Candidate} {p : List Char}
    (h : ∀ c ∈ L, c.text ≠ p) (dir : CycleDirection) :
    cycle_candidates dir (some p) L = (L.getD 0 defaultCand).text := by
  have hfi : gFindIdx (fun c => decide (c.text = p)) L = none :=
    gFindIdx_eq_none (fun c hc => by simp [h c hc])
  simp only [cycle_candidates, hfi]
  rw [headD_eq_getD]

theorem cycle_candidates_fwd_idx {L : List Candidate} {i : Nat}
    (hnd : (L.map (·.text)).Nodup) (hi : i < L.length) :
    cycle_candidates .CYCLE_FORWARD (some ((L.getD i defaultCand).text)) L
      = (L.getD ((i + 1) % L.length) defaultCand).text := by
  simp only [cycle_candidates, gFindIdx_text_nodup hnd hi rfl]
  by_cases h : i + 1 < L.length
  · rw [if_pos h, Nat.mod_eq_of_lt h]
  · have hlen : i + 1 = L.length := by omega
    rw [if_neg h, hlen, Nat.mod_self, headD_eq_getD]

theorem cycle_candidates_bwd_idx {L : List Candidate} {i : Nat}
    (hnd : (L.map (·.text)).Nodup) (hi : i < L.length) :
    cycle_candidates .CYCLE_BACKWARD (some ((L.getD i defaultCand).text)) L
      = (L.getD ((i + L.length - 1) % L.length) defaultCand).text := by
  have hn : 0 < L.length := by omega
  simp only [cycle_candidates, gFindIdx_text_nodup hnd hi rfl]
  by_cases h : i = 0
  · subst h
    rw [if_pos rfl]
    have h0 : 0 + L.length - 1 = L.length - 1 := by omega
    rw [h0, Nat.mod_eq_of_lt (by omega)]
  · rw [if_neg h]
    have harg : i + L.length - 1 = (i - 1) + L.length := by omega
    rw [harg, Nat.add_mod_right, Nat.mod_eq_of_lt (by omega)]

theorem cycle_candidates_mem {L : List Candidate} (hne : L ≠ [])
    (dir : CycleDirection) (prev : Option (List Char)) :
    cycle_candidates dir prev L ∈ L.map (·.text) := by
  have hn : 0 < L.length := List.length_pos.mpr hne
  have hmem : ∀ j, j < L.length → (L.getD j defaultCand).text ∈ L.map (·.text) :=
    fun j hj => List.mem_map_of_mem (·.text) (getD_mem L j defaultCand hj)
  have hhead : (L.headD defaultCand).text ∈ L.map (·.text) := by
    rw [headD_eq_getD]; exact hmem 0 hn
  cases prev with
  | none => exact hhead
  | some p =>
    cases hfi : gFindIdx (fun c => decide (c.text = p)) L with
    | none =>
      simp only [cycle_candidates, hfi]
      exact hhead
    | some i =>
      have hilt := gFindIdx_some_lt hfi
      cases dir with
      | CYCLE_FORWARD =>
        simp only [cycle_candidates, hfi]
        by_cases h : i + 1 < L.length
        · rw [if_pos h]; exact hmem _ h
        · rw [if_neg h]; exact hhead
      | CYCLE_BACKWARD =>
        simp only [cycle_candidates, hfi]
        by_cases h : i = 0
        · rw [if_pos h]; exact hmem _ (by omega)
        · rw [if_neg h]; exact hmem _ (by omega)

theorem cycIter_fwd {L : List Candidate} (hnd : (L.map (·.text)).Nodup) :
    ∀ (k i : Nat), i < L.length →
      cycIter .CYCLE_FORWARD L k ((L.getD i defaultCand).text)
        = (L.getD ((i + k) % L.length) defaultCand).text := by
  intro k
  induction k with
  | zero =>
    intro i hi
    simp [cycIter, Nat.mod_eq_of_lt hi]
  | succ k ih =>
    intro i hi
    have hn : 0 < L.length := by omega
    show cycIter .CYCLE_FORWARD L k
        (cycle_candidates .CYCLE_FORWARD (some ((L.getD i defaultCand).text)) L)
      = _
    rw [cycle_candidates_fwd_idx hnd hi,
      ih ((i + 1) % L.length) (Nat.mod_lt _ hn), Nat.mod_add_mod]
    have harg : i + 1 + k = i + (k + 1) := by omega
    rw [harg]

theorem cycIter_bwd {L : List Candidate} (hnd : (L.map (·.text)).Nodup) :
    ∀ (k i : Nat), i < L.length →
      cycIter .CYCLE_BACKWARD L k ((L.getD i defaultCand).text)
        = (L.getD ((i + k * (L.length - 1)) % L.length) defaultCand).text := by
  intro k
  induction k with
  | zero =>
    intro i hi
    simp [cycIter, Nat.mod_eq_of_lt hi]
  | succ k ih =>
    intro i hi
    have hn : 0 < L.length := by omega
    show cycIter .CYCLE_BACKWARD L k
        (cycle_candidates .CYCLE_BACKWARD (some ((L.getD i defaultCand).text)) L)
      = _
    rw [cycle_candidates_bwd_idx hnd hi,
      ih ((i + L.length - 1) % L.length) (Nat.mod_lt _ hn), Nat.mod_add_mod]
    have hmul : (k + 1) * (L.length - 1) = k * (L.length - 1) + (L.length - 1) :=
      Nat.succ_mul k (L.length - 1)
    rw [hmul]
    generalize k * (L.length - 1) = m
    have harg : i + L.length - 1 + m = i + (m + (L.length - 1)) := by omega
    rw [harg]

end CycleLemmas

/-- Example list for the C1 witness. -/
def sampleC1 : List Candidate :=
  [⟨5, ['a'], .MATCH_EXACT⟩, ⟨3, ['b'], .MATCH_FUZZY_FORWARD⟩]

/-- C1: on a non-empty candidate list, `cycle_candidates` returns the first
element's text when there is no previous completion (Fresh); when the
previous completion is the text of the element at index `i` (the index being
well defined because the texts are pairwise distinct), it returns the element
at index `(i+1) mod |L|` for Forward and `(i-1+|L|) mod |L|` — written
`(i+|L|-1) mod |L|` over `Nat`, the same integer — for Backward; and when
the previous completion is set but matches no element, it falls back to
Fresh behaviour and returns the first element. -/
theorem C1_cycle_candidates_spec (L : List Candidate) (hne : L ≠ []) :
    (∀ dir, cycle_candidates dir none L = (L.getD 0 defaultCand).text)
    ∧ ((L.map (·.text)).Nodup → ∀ i, i < L.length →
        cycle_candidates .CYCLE_FORWARD (some ((L.getD i defaultCand).text)) L
          = (L.getD ((i + 1) % L.length) defaultCand).text
        ∧ cycle_candidates .CYCLE_BACKWARD (some ((L.getD i defaultCand).text)) L
          = (L.getD ((i + L.length - 1) % L.length) defaultCand).text)
    ∧ (∀ p, (∀ c ∈ L, c.text ≠ p) → ∀ dir,
        cycle_candidates dir (some p) L = (L.getD 0 defaultCand).text) := by
  refine ⟨fun dir => cycle_candidates_none dir, ?_, ?_⟩
  · intro hnd i hi
    exact ⟨cycle_candidates_fwd_idx hnd hi, cycle_candidates_bwd_idx hnd hi⟩
  · intro p h dir
    exact cycle_candidates_notfound h dir

/-- Witness for C1 at a concrete two-element list. -/
theorem C1_cycle_candidates_spec_witness :
    cycle_candidates .CYCLE_FORWARD none sampleC1 = ['a']
    ∧ cycle_candidates .CYCLE_FORWARD (some ['a']) sampleC1 = ['b']
    ∧ cycle_candidates .CYCLE_BACKWARD (some ['a']) sampleC1 = ['b']
    ∧ cycle_candidates .CYCLE_FORWARD (some ['z']) sampleC1 = ['a'] := by
  obtain ⟨h1, h2, h3⟩ := C1_cycle_candidates_spec sampleC1 (by decide)
  have h2' := h2 (by decide) 0 (by decide)
  exact ⟨h1 .CYCLE_FORWARD, h2'.1, h2'.2, h3 ['z'] (by decide) .CYCLE_FORWARD⟩

/-- Candidate list with a repeated text (as the pipeline can produce when
the sentinel's text, the typed prefix, is itself a collected token). -/
def dupC2 : List Candidate :=
  [⟨0, ['a'], .MATCH_EXACT⟩, ⟨0, ['b'], .MATCH_EXACT⟩,
   ⟨0, ['c'], .MATCH_EXACT⟩, ⟨0, ['a'], .MATCH_EXACT⟩]

/-- C2 counterexample: on a candidate list containing two elements with
equal text, cycling Forward `|L|` times (accepting each result) from the
element with text c does not return to it — the text-keyed lookup always
finds the first of the duplicates, collapsing the cycle. -/
theorem C2_counterexample :
    ['c'] ∈ dupC2.map (·.text) ∧ dupC2 ≠ []
    ∧ cycIter .CYCLE_FORWARD dupC2 dupC2.length ['c'] ≠ ['c'] := by decide

/-- C2 (amended): on a candidate list whose texts are pairwise distinct,
applying the Forward cycle step `|L|` times (accepting each returned
candidate) returns to the original element, likewise for Backward, and one
Forward step followed by one Backward step (accepting in between) returns
the original candidate. -/
theorem C2_cycle_roundtrip_nodup (L : List Candidate)
    (hnd : (L.map (·.text)).Nodup) (i : Nat) (hi : i < L.length) :
    cycIter .CYCLE_FORWARD L L.length ((L.getD i defaultCand).text)
      = (L.getD i defaultCand).text
    ∧ cycIter .CYCLE_BACKWARD L L.length ((L.getD i defaultCand).text)
      = (L.getD i defaultCand).text
    ∧ cycle_candidates .CYCLE_BACKWARD
        (some (cycle_candidates .CYCLE_FORWARD
          (some ((L.getD i defaultCand).text)) L)) L
      = (L.getD i defaultCand).text := by
  have hn : 0 < L.length := by omega
  refine ⟨?_, ?_, ?_⟩
  · rw [cycIter_fwd hnd L.length i hi]
    have harg : (i + L.length) % L.length = i := by
      rw [Nat.add_mod_right, Nat.mod_eq_of_lt hi]
    rw [harg]
  · rw [cycIter_bwd hnd L.length i hi]
    have harg : (i + L.length * (L.length - 1)) % L.length = i := by
      rw [Nat.add_mul_mod_self_left, Nat.mod_eq_of_lt hi]
    rw [harg]
  · rw [cycle_candidates_fwd_idx hnd hi]
    have hj : (i + 1) % L.length < L.length := Nat.mod_lt _ hn
    rw [cycle_candidates_bwd_idx hnd hj]
    have harg : ((i + 1) % L.length + L.length - 1) % L.length = i := by
      have h2 : (i + 1) % L.length + L.length - 1
          = (i + 1) % L.length + (L.length - 1) := by omega
      rw [h2, Nat.mod_add_mod]
      have h3 : i + 1 + (L.length - 1) = i + L.length := by omega
      rw [h3, Nat.add_mod_right, Nat.mod_eq_of_lt hi]
    rw [harg]

/-- Duplicate-free list for the C2 witness. -/
def nodupC2 : List Candidate :=
  [⟨0, ['a'], .MATCH_EXACT⟩, ⟨0, ['b'], .MATCH_EXACT⟩, ⟨0, ['c'], .MATCH_EXACT⟩]

/-- Witness for the amended C2 at a concrete three-element list. -/
theorem C2_cycle_roundtrip_nodup_witness :
    cycIter .CYCLE_FORWARD nodupC2 3 ['b'] = ['b']
    ∧ cycIter .CYCLE_BACKWARD nodupC2 3 ['b'] = ['b']
    ∧ cycle_candidates .CYCLE_BACKWARD
        (some (cycle_candidates .CYCLE_FORWARD (some ['b']) nodupC2)) nodupC2
      = ['b'] := by
  have h := C2_cycle_roundtrip_nodup nodupC2 (by decide) 1 (by decide)
  exact h

/-- C4: `match_fuzzy_forward(seed, tok)` is true iff, after case-folding
both inputs, every character of the seed occurs in the token in order as a
(not necessarily contiguous) subsequence — the single greedy left-to-right,
no-backtracking pass of the implementation finds one exactly when one
exists; in particular the empty seed matches every token,
`is_fuzzy_match("br", "bracket")` is true and `is_fuzzy_match("rb",
"bracket")` is false. -/
theorem C4_match_fuzzy_forward_spec :
    (∀ seed tok : List Char,
        match_fuzzy_forward seed tok = true
          ↔ (casefold seed).Sublist (casefold tok))
    ∧ (∀ tok : List Char, match_fuzzy_forward [] tok = true)
    ∧ match_fuzzy_forward ['b', 'r'] ['b', 'r', 'a', 'c', 'k', 'e', 't'] = true
    ∧ match_fuzzy_forward ['r', 'b'] ['b', 'r', 'a', 'c', 'k', 'e', 't'] = false := by
  refine ⟨?_, ?_, by decide, by decide⟩
  · intro seed tok
    exact fuzzyLoop_iff_sublist (casefold tok) (casefold seed)
  · intro tok
    rfl

section RankLemmas

theorem sortCmp_swap (so : SortOrder) :
    ∀ a b : Candidate, sortCmp so b a ≠ .lt → sortCmp so a b ≠ .gt := by
  intro a b h
  cases so with
  | SORT_ALPHABETICALLY => exact lexCmp_swap a.text b.text h
  | SORT_BY_DISTANCE => exact natCmp_swap a.dist b.dist h

theorem sortCmp_trans (so : SortOrder) :
    ∀ a b c : Candidate,
      sortCmp so a b ≠ .gt → sortCmp so b c ≠ .gt → sortCmp so a c ≠ .gt := by
  intro a b c h1 h2
  cases so with
  | SORT_ALPHABETICALLY => exact lexCmp_trans a.text b.text c.text h1 h2
  | SORT_BY_DISTANCE => exact natCmp_trans a.dist b.dist c.dist h1 h2

theorem mtCmp_swap :
    ∀ a b : Candidate,
      compare_candidates_match_type b a ≠ .lt
        → compare_candidates_match_type a b ≠ .gt := by
  intro a b h
  exact natCmp_swap _ _ h

theorem mtCmp_trans :
    ∀ a b c : Candidate,
      compare_candidates_match_type a b ≠ .gt
        → compare_candidates_match_type b c ≠ .gt
        → compare_candidates_match_type a c ≠ .gt := by
  intro a b c h1 h2
  exact natCmp_trans _ _ _ h1 h2

end RankLemmas

/-- Configuration and input for the C3 witness. -/
def cfgC3 : PluginConfig := ⟨12, 0, .SORT_BY_DISTANCE, true, false⟩

/-- Candidate set for the C3 witness. -/
def clC3 : List Candidate :=
  [⟨7, ['b'], .MATCH_FUZZY_FORWARD⟩, ⟨2, ['c'], .MATCH_EXACT⟩,
   ⟨2, ['a'], .MATCH_FUZZY_FORWARD⟩]

/-- Raw-match stream for the C3 witness. -/
def esC3 : List RawMatch := [⟨0, ['f', 'o']⟩]

/-- C3: the ranking phase first stably sorts the collected (non-sentinel)
candidates by text ascending (Alphabetical) or distance ascending
(ByDistance); then, exactly when `skip_fuzzy_if_exact` is false, stably
re-sorts by match kind so that every exact-kind candidate precedes every
fuzzy-kind one while candidates of equal kind keep their first-pass relative
order (stability stated as preservation of each equal-key filter); the
sentinel takes part in neither sort and is appended as the final element
afterwards by `find_candidates`. -/
theorem C3_rank_spec :
    (∀ (so : SortOrder) (skip : Bool) (l : List Candidate),
      ((gListSort (sortCmp so) l).Perm l)
      ∧ (so = .SORT_ALPHABETICALLY →
          (gListSort (sortCmp so) l).Pairwise
            (fun a b => lexCmp a.text b.text ≠ .gt)
          ∧ ∀ t, (gListSort (sortCmp so) l).filter (fun c => decide (c.text = t))
              = l.filter (fun c => decide (c.text = t)))
      ∧ (so = .SORT_BY_DISTANCE →
          (gListSort (sortCmp so) l).Pairwise (fun a b => a.dist ≤ b.dist)
          ∧ ∀ d, (gListSort (sortCmp so) l).filter (fun c => decide (c.dist = d))
              = l.filter (fun c => decide (c.dist = d)))
      ∧ (skip = true → rank_candidates so skip l = gListSort (sortCmp so) l)
      ∧ (skip = false →
          (rank_candidates so skip l).Perm l
          ∧ (rank_candidates so skip l).Pairwise
              (fun a b => a.match_type = .MATCH_EXACT
                ∨ b.match_type = .MATCH_FUZZY_FORWARD)
          ∧ ∀ mt, (rank_candidates so skip l).filter
                (fun c => decide (c.match_type = mt))
              = (gListSort (sortCmp so) l).filter
                (fun c => decide (c.match_type = mt))))
    ∧ (∀ cfg pfx word pos len es fs,
        collected_candidates cfg pfx word pos len es fs ≠ [] →
        find_candidates cfg pfx word pos len es fs
          = rank_candidates cfg.sort_order cfg.skip_fuzzy_if_exact
              (collected_candidates cfg pfx word pos len es fs)
            ++ [sentinel_candidate cfg pfx word]) := by
  constructor
  · intro so skip l
    refine ⟨gListSort_perm _ l, ?_, ?_, ?_, ?_⟩
    · rintro rfl
      constructor
      · exact gListSort_pairwise (sortCmp .SORT_ALPHABETICALLY)
          (sortCmp_swap _) (sortCmp_trans _) l
      · intro t
        apply gListSort_filter
        intro a b ha hb
        rw [decide_eq_true_eq] at ha hb
        show lexCmp a.text b.text ≠ .lt
        rw [ha, hb, lexCmp_self]
        simp
    · rintro rfl
      constructor
      · have hp := gListSort_pairwise (sortCmp .SORT_BY_DISTANCE)
          (sortCmp_swap _) (sortCmp_trans _) l
        refine hp.imp ?_
        intro a b h
        exact natCmp_ne_gt_iff.mp h
      · intro d
        apply gListSort_filter
        intro a b ha hb
        rw [decide_eq_true_eq] at ha hb
        show natCmp a.dist b.dist ≠ .lt
        rw [ha, hb, natCmp_self]
        simp
    · rintro rfl
      simp [rank_candidates]
    · rintro rfl
      refine ⟨?_, ?_, ?_⟩
      · exact (gListSort_perm _ _).trans (gListSort_perm _ l)
      · have hp := gListSort_pairwise compare_candidates_match_type
          mtCmp_swap mtCmp_trans (gListSort (sortCmp so) l)
        have hout : rank_candidates so false l
            = gListSort compare_candidates_match_type (gListSort (sortCmp so) l) := by
          simp [rank_candidates]
        rw [hout]
        refine hp.imp ?_
        intro a b h
        have hle : mtVal a.match_type ≤ mtVal b.match_type :=
          natCmp_ne_gt_iff.mp h
        cases ha : a.match_type <;> cases hb : b.match_type
        · exact Or.inl rfl
        · exact Or.inl rfl
        · rw [ha, hb] at hle; simp [mtVal] at hle
        · exact Or.inr rfl
      · intro mt
        have hout : rank_candidates so false l
            = gListSort compare_candidates_match_type (gListSort (sortCmp so) l) := by
          simp [rank_candidates]
        rw [hout]
        apply gListSort_filter
        intro a b ha hb
        rw [decide_eq_true_eq] at ha hb
        show natCmp (mtVal a.match_type) (mtVal b.match_type) ≠ .lt
        rw [ha, hb, natCmp_self]
        simp
  · intro cfg pfx word pos len es fs h
    simp [find_candidates, h]

/-- Witness for C3 at a concrete sort order, flag and candidate set. -/
theorem C3_rank_spec_witness :
    (gListSort (sortCmp .SORT_BY_DISTANCE) clC3).Perm clC3
    ∧ (gListSort (sortCmp .SORT_BY_DISTANCE) clC3).Pairwise
        (fun a b => a.dist ≤ b.dist)
    ∧ (rank_candidates .SORT_BY_DISTANCE false clC3).Pairwise
        (fun a b => a.match_type = .MATCH_EXACT
          ∨ b.match_type = .MATCH_FUZZY_FORWARD)
    ∧ rank_candidates .SORT_BY_DISTANCE true clC3
        = gListSort (sortCmp .SORT_BY_DISTANCE) clC3
    ∧ (gListSort (sortCmp .SORT_ALPHABETICALLY) clC3).filter
        (fun c => decide (c.text = ['a']))
      = clC3.filter (fun c => decide (c.text = ['a']))
    ∧ find_candidates cfgC3 ['f'] ['f', 'x'] 10 100 esC3 []
        = rank_candidates cfgC3.sort_order cfgC3.skip_fuzzy_if_exact
            (collected_candidates cfgC3 ['f'] ['f', 'x'] 10 100 esC3 [])
          ++ [sentinel_candidate cfgC3 ['f'] ['f', 'x']] := by
  have h := C3_rank_spec
  have hd := h.1 .SORT_BY_DISTANCE false clC3
  have hs := h.1 .SORT_BY_DISTANCE true clC3
  have ha := h.1 .SORT_ALPHABETICALLY true clC3
  exact ⟨hd.1, (hd.2.2.1 rfl).1, ((hd.2.2.2.2) rfl).2.1, hs.2.2.2.1 rfl,
    (ha.2.1 rfl).2 ['a'], h.2 cfgC3 ['f'] ['f', 'x'] 10 100 esC3 [] (by decide)⟩

section CollectorLemmas

theorem findCand_eq_none {t : List Char} {l : List Candidate} :
    findCand t l = none ↔ ∀ c ∈ l, c.text ≠ t := by
  induction l with
  | nil => simp [findCand]
  | cons c cs ih =>
    by_cases h : c.text = t
    · simp [findCand, h]
    · simp [findCand, h, ih]

theorem findCand_mem {t : List Char} {l : List Candidate} {c : Candidate}
    (h : findCand t l = some c) : c ∈ l ∧ c.text = t := by
  induction l with
  | nil => simp [findCand] at h
  | cons c' cs ih =>
    by_cases h' : c'.text = t
    · rw [findCand, if_pos h'] at h
      injection h with h''
      subst h''
      exact ⟨List.mem_cons_self c' cs, h'⟩
    · rw [findCand, if_neg h'] at h
      obtain ⟨hm, ht⟩ := ih h
      exact ⟨List.mem_cons_of_mem c' hm, ht⟩

theorem findCand_of_mem_nodup {t : List Char} {l : List Candidate}
    {c : Candidate} (hnd : (l.map (·.text)).Nodup) (hm : c ∈ l)
    (ht : c.text = t) : findCand t l = some c := by
  induction l with
  | nil => simp at hm
  | cons c' cs ih =>
    have hnd' := hnd
    rw [List.map_cons, List.nodup_cons] at hnd'
    obtain ⟨hc', hcs⟩ := hnd'
    rcases List.mem_cons.mp hm with rfl | hm'
    · rw [findCand, if_pos ht]
    · have hne : c'.text ≠ t := by
        intro he
        apply hc'
        rw [he, ← ht]
        exact List.mem_map_of_mem (·.text) hm'
      rw [findCand, if_neg hne]
      exact ih hcs hm'

theorem updateFirst_map_text (t : List Char) (d : Nat) (l : List Candidate) :
    (updateFirst t d l).map (·.text) = l.map (·.text) := by
  induction l with
  | nil => rfl
  | cons c cs ih =>
    by_cases h : c.text = t
    · simp [updateFirst, h]
    · simp [updateFirst, h, ih]

theorem updateFirst_length (t : List Char) (d : Nat) (l : List Candidate) :
    (updateFirst t d l).length = l.length := by
  have := congrArg List.length (updateFirst_map_text t d l)
  simpa using this

theorem updateFirst_mem_text {t : List Char} {d : Nat} {l : List Candidate}
    {c : Candidate} (h : c ∈ updateFirst t d l) :
    ∃ c' ∈ l, c'.text = c.text := by
  induction l with
  | nil => simp [updateFirst] at h
  | cons c' cs ih =>
    by_cases h' : c'.text = t
    · rw [updateFirst, if_pos h'] at h
      rcases List.mem_cons.mp h with rfl | hm
      · exact ⟨c', List.mem_cons_self c' cs, rfl⟩
      · exact ⟨c, List.mem_cons_of_mem c' hm, rfl⟩
    · rw [updateFirst, if_neg h'] at h
      rcases List.mem_cons.mp h with rfl | hm
      · exact ⟨c, List.mem_cons_self c cs, rfl⟩
      · obtain ⟨c'', hc'', he⟩ := ih hm
        exact ⟨c'', List.mem_cons_of_mem c' hc'', he⟩

theorem findCand_updateFirst_self (t : List Char) (d : Nat)
    (l : List Candidate) :
    findCand t (updateFirst t d l)
      = (findCand t l).map (fun c => { c with dist := min d c.dist }) := by
  induction l with
  | nil => rfl
  | cons c cs ih =>
    by_cases h : c.text = t
    · rw [updateFirst, if_pos h, findCand, findCand, if_pos h]
      simp [h]
    · rw [updateFirst, if_neg h, findCand, findCand, if_neg h, if_neg h, ih]

theorem findCand_updateFirst_other {t t' : List Char} (hne : t' ≠ t)
    (d : Nat) (l : List Candidate) :
    findCand t' (updateFirst t d l) = findCand t' l := by
  induction l with
  | nil => rfl
  | cons c cs ih =>
    by_cases h : c.text = t
    · have h2 : ¬ ({ c with dist := min d c.dist } : Candidate).text = t' := by
        show ¬ c.text = t'
        rw [h]
        exact fun he => hne he.symm
      have h3 : ¬ c.text = t' := by
        rw [h]; exact fun he => hne he.symm
      rw [updateFirst, if_pos h, findCand, if_neg h2, findCand, if_neg h3]
    · by_cases h' : c.text = t'
      · rw [updateFirst, if_neg h, findCand, if_pos h', findCand, if_pos h']
      · rw [updateFirst, if_neg h, findCand, if_neg h', findCand, if_neg h', ih]

theorem fwBody_nodup {word : List Char} {pos : Nat} {mt : MatchType}
    {st : List Candidate × Nat} {r : RawMatch}
    (hnd : (st.1.map (·.text)).Nodup) :
    ((fwBody word pos mt st r).1.map (·.text)).Nodup := by
  cases hfc : findCand r.text st.1 with
  | some c =>
    simp only [fwBody, hfc]
    rw [updateFirst_map_text]
    exact hnd
  | none =>
    by_cases hw : r.text = word
    · simp only [fwBody, hfc, if_pos hw]
      exact hnd
    · simp only [fwBody, hfc, if_neg hw, List.map_cons, List.nodup_cons]
      refine ⟨?_, hnd⟩
      intro hmem
      rw [List.mem_map] at hmem
      obtain ⟨c', hc', he⟩ := hmem
      exact (findCand_eq_none.mp hfc c' hc') he

end CollectorLemmas

section LoopLemmas

theorem fwBody_length (word : List Char) (pos : Nat) (mt : MatchType)
    (st : List Candidate × Nat) (r : RawMatch) :
    (fwBody word pos mt st r).1.length + st.2
      = st.1.length + (fwBody word pos mt st r).2 := by
  cases hfc : findCand r.text st.1 with
  | some c =>
    simp only [fwBody, hfc]
    rw [updateFirst_length]
  | none =>
    by_cases hw : r.text = word
    · simp only [fwBody, hfc, if_pos hw]
    · simp only [fwBody, hfc, if_neg hw, List.length_cons]
      omega

theorem fwBody_text_sub {word : List Char} {pos : Nat} {mt : MatchType}
    {st : List Candidate × Nat} {r : RawMatch} {c : Candidate}
    (hc : c ∈ (fwBody word pos mt st r).1) :
    c.text = r.text ∨ ∃ c' ∈ st.1, c'.text = c.text := by
  revert hc
  cases hfc : findCand r.text st.1 with
  | some c0 =>
    simp only [fwBody, hfc]
    intro hc
    exact Or.inr (updateFirst_mem_text hc)
  | none =>
    by_cases hw : r.text = word
    · simp only [fwBody, hfc, if_pos hw]
      intro hc
      exact Or.inr ⟨c, hc, rfl⟩
    · simp only [fwBody, hfc, if_neg hw]
      intro hc
      rcases List.mem_cons.mp hc with rfl | hm
      · exact Or.inl rfl
      · exact Or.inr ⟨c, hm, rfl⟩

theorem fw_loop_nodup (limit : Nat) (word : List Char) (pos : Nat)
    (sel : List Char → Bool) (mt : MatchType) (a b : Nat) :
    ∀ (stream : List RawMatch) (st : List Candidate × Nat),
      (st.1.map (·.text)).Nodup →
      ((fw_loop limit word pos sel mt a b stream st).1.map (·.text)).Nodup := by
  intro stream
  induction stream with
  | nil => intro st h; exact h
  | cons r rest ih =>
    intro st h
    show ((if a ≤ r.start ∧ r.start < b then
        let st' := if sel r.text then fwBody word pos mt st r else st
        if st'.2 = limit then st'
        else fw_loop limit word pos sel mt a b rest st'
      else st).1.map (·.text)).Nodup
    by_cases hw : a ≤ r.start ∧ r.start < b
    · rw [if_pos hw]
      have hst' : ((if sel r.text then fwBody word pos mt st r else st).1.map
          (·.text)).Nodup := by
        by_cases hs : sel r.text
        · rw [if_pos hs]; exact fwBody_nodup h
        · rw [if_neg hs]; exact h
      by_cases hl : (if sel r.text then fwBody word pos mt st r else st).2 = limit
      · simp only [if_pos hl]
        exact hst'
      · simp only [if_neg hl]
        exact ih _ hst'
    · rw [if_neg hw]
      exact h

theorem fw_loop_length (limit : Nat) (word : List Char) (pos : Nat)
    (sel : List Char → Bool) (mt : MatchType) (a b : Nat) :
    ∀ (stream : List RawMatch) (st : List Candidate × Nat),
      (fw_loop limit word pos sel mt a b stream st).1.length + st.2
        = st.1.length + (fw_loop limit word pos sel mt a b stream st).2 := by
  intro stream
  induction stream with
  | nil => intro st; rfl
  | cons r rest ih =>
    intro st
    show (if a ≤ r.start ∧ r.start < b then
        let st' := if sel r.text then fwBody word pos mt st r else st
        if st'.2 = limit then st'
        else fw_loop limit word pos sel mt a b rest st'
      else st).1.length + st.2
      = st.1.length + (if a ≤ r.start ∧ r.start < b then
        let st' := if sel r.text then fwBody word pos mt st r else st
        if st'.2 = limit then st'
        else fw_loop limit word pos sel mt a b rest st'
      else st).2
    by_cases hw : a ≤ r.start ∧ r.start < b
    · rw [if_pos hw]
      have hstep : (if sel r.text then fwBody word pos mt st r else st).1.length
          + st.2 = st.1.length
            + (if sel r.text then fwBody word pos mt st r else st).2 := by
        by_cases hs : sel r.text
        · rw [if_pos hs]; exact fwBody_length word pos mt st r
        · rw [if_neg hs]
      by_cases hl : (if sel r.text then fwBody word pos mt st r else st).2 = limit
      · simp only [if_pos hl]
        exact hstep
      · simp only [if_neg hl]
        have := ih (if sel r.text then fwBody word pos mt st r else st)
        omega
    · rw [if_neg hw]

theorem fw_loop_text_sub (limit : Nat) (word : List Char) (pos : Nat)
    (sel : List Char → Bool) (mt : MatchType) (a b : Nat) :
    ∀ (stream : List RawMatch) (st : List Candidate × Nat) (c : Candidate),
      c ∈ (fw_loop limit word pos sel mt a b stream st).1 →
      (∃ c' ∈ st.1, c'.text = c.text)
      ∨ ∃ r ∈ stream, a ≤ r.start ∧ r.start < b ∧ r.text = c.text := by
  intro stream
  induction stream with
  | nil =>
    intro st c hc
    exact Or.inl ⟨c, hc, rfl⟩
  | cons r rest ih =>
    intro st c
    show c ∈ (if a ≤ r.start ∧ r.start < b then
        let st' := if sel r.text then fwBody word pos mt st r else st
        if st'.2 = limit then st'
        else fw_loop limit word pos sel mt a b rest st'
      else st).1 → _
    by_cases hw : a ≤ r.start ∧ r.start < b
    · rw [if_pos hw]
      have hstep : ∀ c' : Candidate,
          c' ∈ (if sel r.text then fwBody word pos mt st r else st).1 →
          (∃ c'' ∈ st.1, c''.text = c'.text) ∨ c'.text = r.text := by
        intro c' hc'
        by_cases hs : sel r.text
        · rw [if_pos hs] at hc'
          rcases fwBody_text_sub hc' with h | h
          · exact Or.inr h
          · exact Or.inl h
        · rw [if_neg hs] at hc'
          exact Or.inl ⟨c', hc', rfl⟩
      by_cases hl : (if sel r.text then fwBody word pos mt st r else st).2 = limit
      · simp only [if_pos hl]
        intro hc
        rcases hstep c hc with h | h
        · exact Or.inl h
        · exact Or.inr ⟨r, List.mem_cons_self r rest, hw.1, hw.2, h.symm⟩
      · simp only [if_neg hl]
        intro hc
        rcases ih _ c hc with ⟨c', hc', he⟩ | ⟨r', hr', h1, h2, h3⟩
        · rcases hstep c' hc' with h | h
          · obtain ⟨c'', hc'', he''⟩ := h
            exact Or.inl ⟨c'', hc'', he''.trans he⟩
          · exact Or.inr ⟨r, List.mem_cons_self r rest, hw.1, hw.2,
              (h ▸ he)⟩
        · exact Or.inr ⟨r', List.mem_cons_of_mem r hr', h1, h2, h3⟩
    · rw [if_neg hw]
      intro hc
      exact Or.inl ⟨c, hc, rfl⟩

end LoopLemmas

/-- Running minimum of the distances of a tagged occurrence list, starting
from `a` — the accumulated effect of `c->dist = MIN(ABS(match_start - pos),
c->dist)` over successive duplicate occurrences. -/
def minFold (pos : Nat) (os : List (MatchType × RawMatch)) (a : Nat) : Nat :=
  os.foldl (fun acc o => min (Nat.dist o.2.start pos) acc) a

section MinFoldLemmas

theorem minFold_le_init (pos : Nat) :
    ∀ (os : List (MatchType × RawMatch)) (a : Nat), minFold pos os a ≤ a := by
  intro os
  induction os with
  | nil => intro a; exact Nat.le_refl a
  | cons o os ih =>
    intro a
    calc minFold pos (o :: os) a = minFold pos os (min (Nat.dist o.2.start pos) a) := rfl
    _ ≤ min (Nat.dist o.2.start pos) a := ih _
    _ ≤ a := Nat.min_le_right _ _

theorem minFold_le_mem (pos : Nat) :
    ∀ (os : List (MatchType × RawMatch)) (a : Nat) (o : MatchType × RawMatch),
      o ∈ os → minFold pos os a ≤ Nat.dist o.2.start pos := by
  intro os
  induction os with
  | nil => intro a o h; simp at h
  | cons o' os ih =>
    intro a o h
    rcases List.mem_cons.mp h with rfl | hm
    · calc minFold pos (o :: os) a
          = minFold pos os (min (Nat.dist o.2.start pos) a) := rfl
      _ ≤ min (Nat.dist o.2.start pos) a := minFold_le_init pos os _
      _ ≤ Nat.dist o.2.start pos := Nat.min_le_left _ _
    · exact ih _ o hm

theorem minFold_mem (pos : Nat) :
    ∀ (os : List (MatchType × RawMatch)) (a : Nat),
      minFold pos os a = a
      ∨ ∃ o ∈ os, minFold pos os a = Nat.dist o.2.start pos := by
  intro os
  induction os with
  | nil => intro a; exact Or.inl rfl
  | cons o' os ih =>
    intro a
    have hstep : minFold pos (o' :: os) a
        = minFold pos os (min (Nat.dist o'.2.start pos) a) := rfl
    rcases ih (min (Nat.dist o'.2.start pos) a) with h | ⟨o'', ho'', he⟩
    · rcases Nat.le_total (Nat.dist o'.2.start pos) a with hle | hle
      · refine Or.inr ⟨o', List.mem_cons_self o' os, ?_⟩
        rw [hstep, h, Nat.min_eq_left hle]
      · refine Or.inl ?_
        rw [hstep, h, Nat.min_eq_right hle]
    · exact Or.inr ⟨o'', List.mem_cons_of_mem o' ho'', by rw [hstep, he]⟩

end MinFoldLemmas

section CollectRecLemmas

theorem collectRec_nodup (word : List Char) (pos : Nat) :
    ∀ (obs : List (MatchType × RawMatch)) (st : List Candidate × Nat),
      (st.1.map (·.text)).Nodup →
      ((collectRec word pos st obs).1.map (·.text)).Nodup := by
  intro obs
  induction obs with
  | nil => intro st h; exact h
  | cons o rest ih =>
    intro st h
    exact ih _ (fwBody_nodup h)

theorem collectRec_findCand (word : List Char) (pos : Nat) (t : List Char)
    (ht : t ≠ word) :
    ∀ (obs : List (MatchType × RawMatch)) (st : List Candidate × Nat),
      findCand t (collectRec word pos st obs).1
        = match findCand t st.1,
            obs.filter (fun o => decide (o.2.text = t)) with
          | some c, os => some { c with dist := minFold pos os c.dist }
          | none, [] => none
          | none, o :: os =>
              some ⟨minFold pos os (Nat.dist o.2.start pos), t, o.1⟩ := by
  intro obs
  induction obs with
  | nil =>
    intro st
    cases hfc : findCand t st.1 with
    | some c =>
      show findCand t st.1 = some { c with dist := minFold pos [] c.dist }
      rw [hfc]
      obtain ⟨cd, ctext, cmt⟩ := c
      rfl
    | none =>
      show findCand t st.1 = none
      exact hfc
  | cons omt rest ih =>
    obtain ⟨mt, r⟩ := omt
    intro st
    have hlhs : collectRec word pos st ((mt, r) :: rest)
        = collectRec word pos (fwBody word pos mt st r) rest := rfl
    rw [hlhs, ih (fwBody word pos mt st r)]
    by_cases hr : r.text = t
    · have hfilter : ((mt, r) :: rest).filter (fun o => decide (o.2.text = t))
          = (mt, r) :: rest.filter (fun o => decide (o.2.text = t)) := by
        simp [List.filter_cons, hr]
      rw [hfilter]
      cases hfc : findCand t st.1 with
      | some c =>
        have hbody : fwBody word pos mt st r
            = (updateFirst r.text (Nat.dist r.start pos) st.1, st.2) := by
          simp only [fwBody, hr, hfc]
        rw [hbody]
        have hfc' : findCand t (updateFirst r.text (Nat.dist r.start pos) st.1)
            = some { c with dist := min (Nat.dist r.start pos) c.dist } := by
          rw [hr, findCand_updateFirst_self, hfc]
          rfl
        rw [hfc']
        show some _ = some _
        obtain ⟨cd, ctext, cmt⟩ := c
        rfl
      | none =>
        have hrw : r.text ≠ word := by rw [hr]; exact ht
        have hfc2 : findCand r.text st.1 = none := by rw [hr]; exact hfc
        have hbody : fwBody word pos mt st r
            = (⟨Nat.dist r.start pos, r.text, mt⟩ :: st.1, st.2 + 1) := by
          simp only [fwBody, hfc2, if_neg hrw]
        rw [hbody]
        have hfc' : findCand t
            ((⟨Nat.dist r.start pos, r.text, mt⟩ : Candidate) :: st.1)
            = some ⟨Nat.dist r.start pos, r.text, mt⟩ := by
          rw [findCand, if_pos hr]
        rw [hfc']
        show some _ = some _
        rw [hr]
    · have hfilter : ((mt, r) :: rest).filter (fun o => decide (o.2.text = t))
          = rest.filter (fun o => decide (o.2.text = t)) := by
        simp [List.filter_cons, hr]
      rw [hfilter]
      have hpres : findCand t (fwBody word pos mt st r).1 = findCand t st.1 := by
        cases hfc : findCand r.text st.1 with
        | some c0 =>
          simp only [fwBody, hfc]
          exact findCand_updateFirst_other (fun he => hr he.symm) _ _
        | none =>
          by_cases hw : r.text = word
          · simp only [fwBody, hfc, if_pos hw]
          · simp only [fwBody, hfc, if_neg hw]
            rw [findCand, if_neg hr]
      rw [hpres]

theorem filter_text_length_one {l : List Candidate} {t : List Char}
    {c : Candidate} (hnd : (l.map (·.text)).Nodup) (hm : c ∈ l)
    (ht : c.text = t) :
    (l.filter (fun c => decide (c.text = t))).length = 1 := by
  induction l with
  | nil => simp at hm
  | cons c' cs ih =>
    have hnd' := hnd
    rw [List.map_cons, List.nodup_cons] at hnd'
    obtain ⟨hc', hcs⟩ := hnd'
    rcases List.mem_cons.mp hm with rfl | hm'
    · have hempty : cs.filter (fun c => decide (c.text = t)) = [] := by
        rw [List.filter_eq_nil_iff]
        intro x hx
        simp only [decide_eq_true_eq]
        intro hxe
        apply hc'
        have hce : c.text = x.text := by rw [ht, hxe]
        rw [hce]
        exact List.mem_map_of_mem (·.text) hx
      rw [List.filter_cons]
      simp [ht, hempty]
    · have hne : c'.text ≠ t := by
        intro he
        apply hc'
        rw [he, ← ht]
        exact List.mem_map_of_mem (·.text) hm'
      rw [List.filter_cons]
      simp only [decide_eq_true_eq, hne, if_neg]
      · exact ih hcs hm'

end CollectRecLemmas

section PipelineLemmas

theorem find_words_nodup (cfg : PluginConfig) (pfx word : List Char)
    (pos len : Nat) (fuzzy : Bool) (stream : List RawMatch)
    (st : List Candidate × Nat) (h : (st.1.map (·.text)).Nodup) :
    ((find_words cfg pfx word pos len fuzzy stream st).1.map (·.text)).Nodup :=
  fw_loop_nodup _ _ _ _ _ _ _ stream st h

theorem find_words_length (cfg : PluginConfig) (pfx word : List Char)
    (pos len : Nat) (fuzzy : Bool) (stream : List RawMatch)
    (st : List Candidate × Nat) :
    (find_words cfg pfx word pos len fuzzy stream st).1.length + st.2
      = st.1.length + (find_words cfg pfx word pos len fuzzy stream st).2 :=
  fw_loop_length _ _ _ _ _ _ _ stream st

theorem collected_candidates_nodup (cfg : PluginConfig) (pfx word : List Char)
    (pos len : Nat) (es fs : List RawMatch) :
    ((collected_candidates cfg pfx word pos len es fs).map (·.text)).Nodup := by
  have h1 : (((find_words cfg pfx word pos len false es ([], 0)).1).map
      (·.text)).Nodup :=
    find_words_nodup cfg pfx word pos len false es ([], 0) (by simp)
  simp only [collected_candidates]
  by_cases h : (find_words cfg pfx word pos len false es ([], 0)).2 = 0
      ∨ cfg.skip_fuzzy_if_exact = false
  · rw [if_pos h]
    exact find_words_nodup cfg pfx word pos len true fs _ h1
  · rw [if_neg h]
    exact h1

theorem rank_candidates_perm (so : SortOrder) (skip : Bool)
    (l : List Candidate) : (rank_candidates so skip l).Perm l := by
  cases skip with
  | true =>
    simp only [rank_candidates, if_pos rfl]
    exact gListSort_perm _ l
  | false =>
    have h : rank_candidates so false l
        = gListSort compare_candidates_match_type (gListSort (sortCmp so) l) := by
      simp [rank_candidates]
    rw [h]
    exact (gListSort_perm _ _).trans (gListSort_perm _ l)

end PipelineLemmas

/-- C5: every non-empty built candidate list is a duplicate-free body (no
two non-sentinel candidates share equal text) followed by the sentinel as
its final element; the sentinel's text is the typed word or prefix, so it
can only coincide with a body entry's text when that text is identical to
the typed prefix/word. -/
theorem C5_list_invariants (cfg : PluginConfig) (pfx word : List Char)
    (pos len : Nat) (es fs : List RawMatch)
    (hne : find_candidates cfg pfx word pos len es fs ≠ []) :
    ∃ body,
      find_candidates cfg pfx word pos len es fs
        = body ++ [sentinel_candidate cfg pfx word]
      ∧ (body.map (·.text)).Nodup
      ∧ (sentinel_candidate cfg pfx word).text
          = (if cfg.remove_trailing_word_part then word else pfx)
      ∧ (∀ c ∈ body, c.text = (sentinel_candidate cfg pfx word).text →
          (sentinel_candidate cfg pfx word).text = pfx
          ∨ (sentinel_candidate cfg pfx word).text = word) := by
  have hcol : collected_candidates cfg pfx word pos len es fs ≠ [] := by
    intro h
    apply hne
    simp [find_candidates, h]
  refine ⟨rank_candidates cfg.sort_order cfg.skip_fuzzy_if_exact
    (collected_candidates cfg pfx word pos len es fs), ?_, ?_, rfl, ?_⟩
  · simp [find_candidates, hcol]
  · have hperm := (rank_candidates_perm cfg.sort_order cfg.skip_fuzzy_if_exact
      (collected_candidates cfg pfx word pos len es fs)).map (·.text)
    exact hperm.nodup_iff.mpr
      (collected_candidates_nodup cfg pfx word pos len es fs)
  · intro c _ _
    by_cases hf : cfg.remove_trailing_word_part
    · exact Or.inr (by simp [sentinel_candidate, hf])
    · exact Or.inl (by simp [sentinel_candidate, hf])

/-- Configuration for the C5 witness. -/
def cfgC5 : PluginConfig := ⟨12, 0, .SORT_BY_DISTANCE, true, false⟩

/-- Raw-match stream for the C5 witness. -/
def esC5 : List RawMatch := [⟨0, ['f', 'o', 'o']⟩, ⟨20, ['f', 'o', 'o']⟩]

/-- Witness for C5 at a concrete scan producing a non-empty list. -/
theorem C5_list_invariants_witness :
    ∃ body,
      find_candidates cfgC5 ['f'] ['f', 'x'] 10 100 esC5 []
        = body ++ [sentinel_candidate cfgC5 ['f'] ['f', 'x']]
      ∧ (body.map (·.text)).Nodup
      ∧ (sentinel_candidate cfgC5 ['f'] ['f', 'x']).text
          = (if cfgC5.remove_trailing_word_part then ['f', 'x'] else ['f'])
      ∧ (∀ c ∈ body,
          c.text = (sentinel_candidate cfgC5 ['f'] ['f', 'x']).text →
          (sentinel_candidate cfgC5 ['f'] ['f', 'x']).text = ['f']
          ∨ (sentinel_candidate cfgC5 ['f'] ['f', 'x']).text = ['f', 'x']) :=
  C5_list_invariants cfgC5 ['f'] ['f', 'x'] 10 100 esC5 [] (by decide)

/-- C6: over the sequence of occurrences that reach the scan-loop body
(tagged with the pass that produced them), each token text observed at
least once — in particular more than once — yields exactly one retained
candidate; its distance is the minimum of `|occurrence_start - cursor_pos|`
over all observed occurrences of that text, and its match kind is the one
assigned by the pass of the first occurrence that discovered it (so an
exact-pass candidate is never downgraded by a later fuzzy-pass occurrence).
The hypothesis `t ≠ word` reflects that the word being typed is never a
candidate token. -/
theorem C6_collector_dedup (pos : Nat) (word : List Char)
    (obs : List (MatchType × RawMatch)) (t : List Char) (ht : t ≠ word)
    (hocc : obs.filter (fun o => decide (o.2.text = t)) ≠ []) :
    ((collectRec word pos ([], 0) obs).1.filter
        (fun c => decide (c.text = t))).length = 1
    ∧ ∀ c ∈ (collectRec word pos ([], 0) obs).1, c.text = t →
        c.dist ∈ (obs.filter (fun o => decide (o.2.text = t))).map
          (fun o => Nat.dist o.2.start pos)
        ∧ (∀ d ∈ (obs.filter (fun o => decide (o.2.text = t))).map
            (fun o => Nat.dist o.2.start pos), c.dist ≤ d)
        ∧ c.match_type
            = ((obs.filter (fun o => decide (o.2.text = t))).headD
                (.MATCH_EXACT, ⟨0, []⟩)).1 := by
  have hchar := collectRec_findCand word pos t ht obs ([], 0)
  have hinit : findCand t (([], 0) : List Candidate × Nat).1 = none := rfl
  rw [hinit] at hchar
  cases hfil : obs.filter (fun o => decide (o.2.text = t)) with
  | nil => exact absurd hfil hocc
  | cons o os =>
    rw [hfil] at hchar
    have hnd : ((collectRec word pos ([], 0) obs).1.map (·.text)).Nodup :=
      collectRec_nodup word pos obs ([], 0) (by simp)
    have hcres := findCand_mem hchar
    constructor
    · exact filter_text_length_one hnd hcres.1 hcres.2
    · intro c hc hct
      have hfc := findCand_of_mem_nodup hnd hc hct
      rw [hchar] at hfc
      have hceq : c = ⟨minFold pos os (Nat.dist o.2.start pos), t, o.1⟩ :=
        (Option.some.inj hfc).symm
      refine ⟨?_, ?_, ?_⟩
      · rcases minFold_mem pos os (Nat.dist o.2.start pos) with h | ⟨o', ho', he⟩
        · rw [hceq]
          show minFold pos os (Nat.dist o.2.start pos) ∈ _
          rw [h, List.map_cons]
          exact List.mem_cons_self _ _
        · rw [hceq]
          show minFold pos os (Nat.dist o.2.start pos) ∈ _
          rw [he, List.map_cons]
          exact List.mem_cons_of_mem _ (List.mem_map_of_mem _ ho')
      · intro d hd
        rw [List.map_cons] at hd
        rcases List.mem_cons.mp hd with rfl | hd'
        · rw [hceq]
          exact minFold_le_init pos os _
        · obtain ⟨o', ho', rfl⟩ := List.mem_map.mp hd'
          rw [hceq]
          exact minFold_le_mem pos os _ o' ho'
      · rw [hceq]
        rfl

/-- Occurrence stream for the C6 witness: the same token reaches the body
once in the exact pass and once, nearer the cursor, in the fuzzy pass. -/
def obsC6 : List (MatchType × RawMatch) :=
  [(.MATCH_EXACT, ⟨10, ['f', 'o']⟩), (.MATCH_FUZZY_FORWARD, ⟨2, ['f', 'o']⟩)]

/-- Witness for C6 at a concrete duplicated occurrence stream. -/
theorem C6_collector_dedup_witness :
    ((collectRec ['w'] 4 ([], 0) obsC6).1.filter
        (fun c => decide (c.text = ['f', 'o']))).length = 1
    ∧ ∀ c ∈ (collectRec ['w'] 4 ([], 0) obsC6).1, c.text = ['f', 'o'] →
        c.dist ∈ (obsC6.filter (fun o => decide (o.2.text = ['f', 'o']))).map
          (fun o => Nat.dist o.2.start 4)
        ∧ (∀ d ∈ (obsC6.filter (fun o => decide (o.2.text = ['f', 'o']))).map
            (fun o => Nat.dist o.2.start 4), c.dist ≤ d)
        ∧ c.match_type
            = ((obsC6.filter (fun o => decide (o.2.text = ['f', 'o']))).headD
                (.MATCH_EXACT, ⟨0, []⟩)).1 :=
  C6_collector_dedup 4 ['w'] obsC6 ['f', 'o'] (by decide) (by decide)

/-- C8: with `distance_limit = 0` the search window is the whole buffer;
with `distance_limit = N > 0` it is `[pos - N*1024, pos + N*1024]` clamped
to the buffer bounds; every occurrence that contributes a candidate to a
scan starts inside the window (`source_start <= match_start < source_end`,
the loop condition), and any position inside the window is within
`N*1024` of the cursor — so occurrences whose offset from the cursor
exceeds `N*1024` are excluded. -/
theorem C8_search_window (cfg : PluginConfig) (pfx word : List Char)
    (pos len : Nat) (fuzzy : Bool) :
    (cfg.distance_limit = 0 →
      searchWindow cfg.distance_limit pos len = (0, len))
    ∧ (0 < cfg.distance_limit →
      searchWindow cfg.distance_limit pos len
        = (pos - cfg.distance_limit * 1024,
           min (pos + cfg.distance_limit * 1024) len))
    ∧ (∀ (stream : List RawMatch) (st : List Candidate × Nat) (c : Candidate),
        c ∈ (find_words cfg pfx word pos len fuzzy stream st).1 →
        (∃ c' ∈ st.1, c'.text = c.text)
        ∨ ∃ r ∈ stream,
            (searchWindow cfg.distance_limit pos len).1 ≤ r.start
            ∧ r.start < (searchWindow cfg.distance_limit pos len).2
            ∧ r.text = c.text)
    ∧ (0 < cfg.distance_limit → ∀ s : Nat,
        (searchWindow cfg.distance_limit pos len).1 ≤ s →
        s < (searchWindow cfg.distance_limit pos len).2 →
        Nat.dist s pos ≤ cfg.distance_limit * 1024) := by
  refine ⟨?_, ?_, ?_, ?_⟩
  · intro h
    simp [searchWindow, h]
  · intro h
    simp [searchWindow, h]
  · intro stream st c hc
    exact fw_loop_text_sub _ _ _ _ _ _ _ stream st c hc
  · intro h s h1 h2
    rw [searchWindow, if_pos h] at h1 h2
    simp only at h1 h2
    simp only [Nat.dist]
    omega

/-- Configuration for the C8 witness (`distance_limit = 1`). -/
def cfgC8 : PluginConfig := ⟨12, 1, .SORT_BY_DISTANCE, true, false⟩

/-- Configuration for the C8 witness (`distance_limit = 0`). -/
def cfgC8z : PluginConfig := ⟨12, 0, .SORT_BY_DISTANCE, true, false⟩

/-- Raw-match stream for the C8 witness. -/
def esC8 : List RawMatch := [⟨2000, ['f', 'o']⟩]

/-- Witness for C8: concrete window shapes, a contributing in-window
occurrence, and the in-window distance bound. -/
theorem C8_search_window_witness :
    searchWindow cfgC8z.distance_limit 5000 9000 = (0, 9000)
    ∧ searchWindow cfgC8.distance_limit 2500 9000 = (2500 - 1024, 3524)
    ∧ ((∃ c' ∈ (([], 0) : List Candidate × Nat).1, c'.text = ['f', 'o'])
        ∨ ∃ r ∈ esC8,
            (searchWindow cfgC8.distance_limit 2500 9000).1 ≤ r.start
            ∧ r.start < (searchWindow cfgC8.distance_limit 2500 9000).2
            ∧ r.text = ['f', 'o'])
    ∧ Nat.dist 2000 2500 ≤ cfgC8.distance_limit * 1024 := by
  have h := C8_search_window cfgC8 ['f'] ['f', 'x'] 2500 9000 false
  have hz := C8_search_window cfgC8z ['f'] ['f', 'x'] 5000 9000 false
  refine ⟨hz.1 rfl, ?_, ?_, ?_⟩
  · have := h.2.1 (by decide)
    simpa using this
  · have hmem : (⟨500, ['f', 'o'], .MATCH_EXACT⟩ : Candidate)
        ∈ (find_words cfgC8 ['f'] ['f', 'x'] 2500 9000 false esC8 ([], 0)).1 := by
      decide
    have := h.2.2.1 esC8 ([], 0) ⟨500, ['f', 'o'], .MATCH_EXACT⟩ hmem
    simpa using this
  · exact h.2.2.2 (by decide) 2000 (by decide) (by decide)

/-- C7: if there is no previous completion or the typed prefix differs from
it, `insert_completion` discards the old list, resets the previous
completion to none and runs a fresh scan before cycling (so the session
state after the call carries the freshly scanned list, and cycling starts
from the Fresh state); otherwise the existing list is reused and the result
does not depend on what a scan would return — no rescan occurs. -/
theorem C7_session_reset (cfg : PluginConfig) (pfx word : List Char)
    (pos len : Nat) (es fs : List RawMatch) (dir : CycleDirection)
    (st : PState) :
    (st.prev_completion ≠ some pfx →
      ((insert_completion cfg pfx word pos len es fs dir st).1.candidates
          = find_candidates cfg pfx word pos len es fs
        ∧ (find_candidates cfg pfx word pos len es fs = [] →
            insert_completion cfg pfx word pos len es fs dir st
              = ({ prev_completion := none, candidates := [] },
                 .no_completions pfx))
        ∧ (find_candidates cfg pfx word pos len es fs ≠ [] →
            insert_completion cfg pfx word pos len es fs dir st
              = ({ prev_completion := some (cycle_candidates dir none
                     (find_candidates cfg pfx word pos len es fs)),
                   candidates := find_candidates cfg pfx word pos len es fs },
                 .replaced (cycle_candidates dir none
                   (find_candidates cfg pfx word pos len es fs))))))
    ∧ (st.prev_completion = some pfx →
      ((insert_completion cfg pfx word pos len es fs dir st).1.candidates
          = st.candidates
        ∧ ∀ es' fs', insert_completion cfg pfx word pos len es' fs' dir st
            = insert_completion cfg pfx word pos len es fs dir st)) := by
  constructor
  · intro hprev
    refine ⟨?_, ?_, ?_⟩
    · simp only [insert_completion, if_neg hprev]
      split <;> rfl
    · intro hfc
      simp only [insert_completion, if_neg hprev]
      rw [if_pos hfc, hfc]
    · intro hfc
      simp only [insert_completion, if_neg hprev]
      rw [if_neg hfc]
  · intro hpeq
    refine ⟨?_, ?_⟩
    · simp only [insert_completion, if_pos hpeq]
      split <;> rfl
    · intro es' fs'
      simp only [insert_completion, if_pos hpeq]

/-- Configuration for the C7 witness. -/
def cfgC7 : PluginConfig := ⟨12, 0, .SORT_BY_DISTANCE, true, false⟩

/-- Raw-match stream for the C7 witness. -/
def esC7 : List RawMatch := [⟨0, ['a', 'b']⟩]

/-- Candidate list held by the reused session of the C7 witness. -/
def lstC7 : List Candidate := [⟨1, ['a', 'b'], .MATCH_EXACT⟩]

/-- Witness for C7: a fresh session rescans, a continuing session reuses
its list independently of the scan streams. -/
theorem C7_session_reset_witness :
    ((insert_completion cfgC7 ['a'] ['a'] 5 50 esC7 [] .CYCLE_FORWARD
        ⟨none, []⟩).1.candidates
      = find_candidates cfgC7 ['a'] ['a'] 5 50 esC7 [])
    ∧ insert_completion cfgC7 ['a'] ['a'] 5 50 esC7 [] .CYCLE_FORWARD ⟨none, []⟩
        = ({ prev_completion := some (cycle_candidates .CYCLE_FORWARD none
               (find_candidates cfgC7 ['a'] ['a'] 5 50 esC7 [])),
             candidates := find_candidates cfgC7 ['a'] ['a'] 5 50 esC7 [] },
           .replaced (cycle_candidates .CYCLE_FORWARD none
             (find_candidates cfgC7 ['a'] ['a'] 5 50 esC7 [])))
    ∧ ((insert_completion cfgC7 ['a'] ['a'] 5 50 esC7 [] .CYCLE_FORWARD
        ⟨some ['a'], lstC7⟩).1.candidates = lstC7)
    ∧ insert_completion cfgC7 ['a'] ['a'] 5 50 [] [] .CYCLE_FORWARD
        ⟨some ['a'], lstC7⟩
      = insert_completion cfgC7 ['a'] ['a'] 5 50 esC7 [] .CYCLE_FORWARD
        ⟨some ['a'], lstC7⟩ := by
  have hf := C7_session_reset cfgC7 ['a'] ['a'] 5 50 esC7 [] .CYCLE_FORWARD
    ⟨none, []⟩
  have hr := C7_session_reset cfgC7 ['a'] ['a'] 5 50 esC7 [] .CYCLE_FORWARD
    ⟨some ['a'], lstC7⟩
  have hfresh := hf.1 (by decide)
  have hreuse := hr.2 rfl
  exact ⟨hfresh.1, hfresh.2.2 (by decide), hreuse.1, hreuse.2 [] []⟩

/-- C9: when the exact and fuzzy passes together discover zero unique
tokens, the candidate list stays empty, the cycler is never reached and no
replacement happens: the call's only outcome is the single informational
message naming the rejected typed prefix (with the previous completion
reset by the fresh-session branch). -/
theorem C9_no_candidates_outcome (cfg : PluginConfig) (pfx word : List Char)
    (pos len : Nat) (es fs : List RawMatch) (dir : CycleDirection)
    (st : PState)
    (hprev : st.prev_completion ≠ some pfx)
    (h1 : (find_words cfg pfx word pos len false es ([], 0)).2 = 0)
    (h2 : (find_words cfg pfx word pos len true fs
        ((find_words cfg pfx word pos len false es ([], 0)).1, 0)).2 = 0) :
    insert_completion cfg pfx word pos len es fs dir st
      = ({ prev_completion := none, candidates := [] },
         .no_completions pfx) := by
  have hl1 := find_words_length cfg pfx word pos len false es ([], 0)
  rw [h1] at hl1
  have hp1 : (find_words cfg pfx word pos len false es ([], 0)).1 = [] := by
    have hlen : (find_words cfg pfx word pos len false es ([], 0)).1.length = 0 := by
      simpa using hl1
    exact List.length_eq_zero.mp hlen
  have hl2 := find_words_length cfg pfx word pos len true fs
    ((find_words cfg pfx word pos len false es ([], 0)).1, 0)
  rw [h2] at hl2
  have hp2 : (find_words cfg pfx word pos len true fs
      ((find_words cfg pfx word pos len false es ([], 0)).1, 0)).1 = [] := by
    have hlen : (find_words cfg pfx word pos len true fs
        ((find_words cfg pfx word pos len false es ([], 0)).1, 0)).1.length = 0 := by
      simpa [hp1] using hl2
    exact List.length_eq_zero.mp hlen
  have hcol : collected_candidates cfg pfx word pos len es fs = [] := by
    simp only [collected_candidates]
    rw [if_pos (Or.inl h1)]
    exact hp2
  have hfc : find_candidates cfg pfx word pos len es fs = [] := by
    simp [find_candidates, hcol]
  simp only [insert_completion, if_neg hprev]
  rw [if_pos hfc, hfc]

/-- Configuration for the C9 witness. -/
def cfgC9 : PluginConfig := ⟨12, 0, .SORT_BY_DISTANCE, true, false⟩

/-- Witness for C9 at empty scan streams. -/
theorem C9_no_candidates_outcome_witness :
    insert_completion cfgC9 ['a'] ['a'] 5 50 [] [] .CYCLE_FORWARD ⟨none, []⟩
      = ({ prev_completion := none, candidates := [] },
         .no_completions ['a']) :=
  C9_no_candidates_outcome cfgC9 ['a'] ['a'] 5 50 [] [] .CYCLE_FORWARD
    ⟨none, []⟩ (by decide) (by decide) (by decide)

/-- C10: one cycle step is pure — it always returns the text of some
element of the (non-empty) candidate list and changes neither the list's
structure nor any candidate's fields; a completed `insert_completion` call
on a continuing session leaves the candidate list exactly as it was and
mutates only `prev_completion`, setting it to the returned text. -/
theorem C10_cycle_frame (L : List Candidate) (hne : L ≠ []) :
    (∀ (dir : CycleDirection) (prev : Option (List Char)),
      cycle_candidates dir prev L ∈ L.map (·.text))
    ∧ (∀ (cfg : PluginConfig) (pfx word : List Char) (pos len : Nat)
        (es fs : List RawMatch) (dir : CycleDirection) (st : PState),
        st.prev_completion = some pfx → st.candidates = L →
        insert_completion cfg pfx word pos len es fs dir st
          = ({ prev_completion := some (cycle_candidates dir (some pfx) L),
               candidates := L },
             .replaced (cycle_candidates dir (some pfx) L))) := by
  constructor
  · intro dir prev
    exact cycle_candidates_mem hne dir prev
  · intro cfg pfx word pos len es fs dir st hp hc
    have hnem : st.candidates ≠ [] := by rw [hc]; exact hne
    simp only [insert_completion, if_pos hp]
    rw [if_neg hnem, hp, hc]

/-- Configuration for the C10 witness. -/
def cfgC10 : PluginConfig := ⟨12, 0, .SORT_BY_DISTANCE, true, false⟩

/-- Candidate list for the C10 witness. -/
def lstC10 : List Candidate :=
  [⟨1, ['a'], .MATCH_EXACT⟩, ⟨2, ['b'], .MATCH_EXACT⟩]

/-- Witness for C10 at a concrete continuing session. -/
theorem C10_cycle_frame_witness :
    cycle_candidates .CYCLE_FORWARD (some ['a']) lstC10 ∈ lstC10.map (·.text)
    ∧ insert_completion cfgC10 ['a'] ['a'] 5 50 [] [] .CYCLE_FORWARD
        ⟨some ['a'], lstC10⟩
      = ({ prev_completion :=
             some (cycle_candidates .CYCLE_FORWARD (some ['a']) lstC10),
           candidates := lstC10 },
         .replaced (cycle_candidates .CYCLE_FORWARD (some ['a']) lstC10)) := by
  have h := C10_cycle_frame lstC10 (by decide)
  exact ⟨h.1 .CYCLE_FORWARD (some ['a']),
    h.2 cfgC10 ['a'] ['a'] 5 50 [] [] .CYCLE_FORWARD ⟨some ['a'], lstC10⟩
      rfl rfl⟩
